import Mathlib

/-!
Verification development for the STL tax-auction geoprocessing script
(`Geoprocessing.py`).

Part 1 embeds the record-extraction stage: the Python regular expression

  (\d{3}-\d{3}(?:-\d{3})?)\s+(.+?)\s+(\d{1,5}\s[\w\s\.\'\-]+?)\s+\$(\d{1,3}(?:,\d{3})*(?:\.\d{2}))

applied by `re.findall` over the concatenated page text in
`extract_property_data`.  The embedding is a small backtracking matcher
over a regex syntax tree that transcribes the pattern token by token,
with Python's preference order (greedy quantifiers try the longer
alternative first, lazy quantifiers the shorter, `?` tries presence
first), leftmost non-overlapping scanning, and capture groups.
Character classes are modelled at ASCII precision (the script's inputs
are ASCII): `\d` is `Char.isDigit`, `\s` is ASCII whitespace, `\w` is
letters, digits and underscore, `.` is any character except newline.

Part 2 embeds the fuzzy address-resolution stage
(`get_best_match` / `fuzzy_match_addresses`): tables are lists of rows,
a row an association list from column names to values, pandas merges
are modelled with their documented semantics (left merge keeps left
rows and fills missing right columns with null; the second merge uses
the pandas default inner join and preserves left order; colliding
right-hand column names receive the `_shp` suffix), and
`rapidfuzz.process.extractOne` is modelled as first-maximum selection
returning `none` on an empty choice list (whose tuple unpacking in
`get_best_match` raises; exceptions are modelled as `Except.error`).
The similarity scorer and threshold are parameters, as in the spec's
resolver contract.
-/

namespace STLGeo

/-! ## Regex syntax trees -/

/-! ## The extraction pattern, transcribed -/

/-! ## findall -/

/-! ## Tables and the address resolver -/

/-! ## Row and table lemmas -/

/-! ## Extraction: concrete behaviour -/

/-! ## Resolver: concrete behaviour -/

/-! ## Declarative regex semantics and engine soundness -/

/-! ## Inversion lemmas -/

/-! ## Slice lemmas -/

/-! ## Characterisations of the quantified subexpressions -/

/-! ## Shape predicates for the captured fields -/

/-! ## Field-shape lemmas -/

/-- Regex syntax: character class, empty word, concatenation, greedy
option, greedy Kleene star, lazy one-or-more, and a numbered capture
group.  Bounded repetitions of the Python pattern are expanded into
these constructors below. -/
inductive RE : Type where
  | cls (p : Char → Bool)
  | eps
  | seq (a b : RE)
  | opt (a : RE)
  | star (a : RE)
  | plusLazy (a : RE)
  | group (idx : Nat) (a : RE)

/-- A capture: group index, start offset, end offset. -/
abbrev Cap := Nat × Nat × Nat

/-- Left-biased choice on `Option`, with the second branch thunked the
way a backtracking matcher explores alternatives. -/
def mfirst {α : Type} (x : Option α) (y : Unit → Option α) : Option α :=
  match x with
  | some r => some r
  | none => y ()

/-- Backtracking matcher in continuation-passing style, mirroring the
Python `re` engine's exploration order: `opt` and `star` try the
consuming branch first (greedy), `plusLazy` offers the continuation
before iterating (lazy).  `fuel` bounds the recursion depth. -/
def mmatch {α : Type} : Nat → RE → List Char → Nat → List Cap →
    (Nat → List Cap → Option α) → Option α
  | 0, _, _, _, _, _ => none
  | Nat.succ fuel, re, s, i, caps, k =>
    match re with
    | RE.cls p =>
      match s.get? i with
      | some c => if p c then k (i + 1) caps else none
      | none => none
    | RE.eps => k i caps
    | RE.seq a b => mmatch fuel a s i caps (fun j cs => mmatch fuel b s j cs k)
    | RE.opt a => mfirst (mmatch fuel a s i caps k) (fun _ => k i caps)
    | RE.star a =>
      mfirst (mmatch fuel a s i caps (fun j cs => mmatch fuel (RE.star a) s j cs k))
        (fun _ => k i caps)
    | RE.plusLazy a =>
      mmatch fuel a s i caps
        (fun j cs => mfirst (k j cs) (fun _ => mmatch fuel (RE.plusLazy a) s j cs k))
    | RE.group idx a => mmatch fuel a s i caps (fun j cs => k j ((idx, i, j) :: cs))

/-- Literal character, as a one-element class. -/
def chr (c : Char) : RE := RE.cls (fun x => x == c)

/-- `\d` at ASCII precision. -/
def digitC : RE := RE.cls Char.isDigit

/-- ASCII `\s`: space, tab, newline, carriage return, vertical tab,
form feed. -/
def isSpaceChar (c : Char) : Bool :=
  c == ' ' || c == '\t' || c == '\n' || c == '\r' || c == Char.ofNat 11 || c == Char.ofNat 12

def wsC : RE := RE.cls isSpaceChar

/-- `\s+` as one mandatory whitespace character followed by a greedy
star, the standard expansion preserving preference order. -/
def ws1 : RE := RE.seq wsC (RE.star wsC)

/-- Python `.` without DOTALL: anything but newline. -/
def dotAny : RE := RE.cls (fun c => !(c == '\n'))

/-- ASCII `\w`: letters, digits, underscore. -/
def isWordChar (c : Char) : Bool := c.isAlpha || c.isDigit || c == '_'

/-- The apostrophe character appearing in the address class `[\w\s\.\'\-]`. -/
def apoChar : Char := Char.ofNat 39

/-- The address body class `[\w\s\.\'\-]`. -/
def addrChar (c : Char) : Bool :=
  isWordChar c || isSpaceChar c || c == '.' || c == apoChar || c == '-'

/-- `a{n}`: exactly `n` copies. -/
def repE (a : RE) : Nat → RE
  | 0 => RE.eps
  | n + 1 => RE.seq a (repE a n)

/-- Up to `n` further copies, greedy (each optional layer prefers to
consume), so `repE a lo` followed by `upTo a (hi - lo)` is `a{lo,hi}`. -/
def upTo (a : RE) : Nat → RE
  | 0 => RE.eps
  | n + 1 => RE.opt (RE.seq a (upTo a n))

/-- `a{lo,lo+extra}`, greedy. -/
def repRange (a : RE) (lo extra : Nat) : RE := RE.seq (repE a lo) (upTo a extra)

/-- Group 1 body: `\d{3}-\d{3}(?:-\d{3})?`. -/
def idRE : RE :=
  RE.seq (repE digitC 3)
    (RE.seq (chr '-')
      (RE.seq (repE digitC 3) (RE.opt (RE.seq (chr '-') (repE digitC 3)))))

/-- Group 2 body: `.+?`. -/
def ownerRE : RE := RE.plusLazy dotAny

/-- Group 3 body: `\d{1,5}\s[\w\s\.\'\-]+?`. -/
def addrRE : RE :=
  RE.seq (repRange digitC 1 4) (RE.seq wsC (RE.plusLazy (RE.cls addrChar)))

/-- `(?:,\d{3})`. -/
def commaTriple : RE := RE.seq (chr ',') (repE digitC 3)

/-- Group 4 body: `\d{1,3}(?:,\d{3})*(?:\.\d{2})`. -/
def amountRE : RE :=
  RE.seq (repRange digitC 1 2)
    (RE.seq (RE.star commaTriple) (RE.seq (chr '.') (repE digitC 2)))

/-- The whole pattern of `extract_property_data`, groups 1 to 4
separated by `\s+`, with the literal dollar sign before group 4. -/
def fullRE : RE :=
  RE.seq (RE.group 1 idRE)
    (RE.seq ws1
      (RE.seq (RE.group 2 ownerRE)
        (RE.seq ws1
          (RE.seq (RE.group 3 addrRE)
            (RE.seq ws1 (RE.seq (chr '$') (RE.group 4 amountRE)))))))

/-- Fuel ample for the nesting depth of `fullRE` plus the characters a
single match attempt can walk. -/
def fuelFor (s : List Char) : Nat := (s.length + 2) * 64

/-- One match attempt anchored at offset `i`: the engine's preferred
match of the full pattern, with its captures and end offset. -/
def matchAt (s : List Char) (i : Nat) : Option (List Cap × Nat) :=
  mmatch (fuelFor s) fullRE s i [] (fun j caps => some (caps, j))

/-- The slice of `s` from offset `a` (inclusive) to `b` (exclusive). -/
def slice (s : List Char) (a b : Nat) : List Char := (s.drop a).take (b - a)

/-- One extracted record: the four captured fields. -/
abbrev Rec4 := List Char × List Char × List Char × List Char

def recLandTax (r : Rec4) : List Char := r.1

def recOwner (r : Rec4) : List Char := r.2.1

def recAddress (r : Rec4) : List Char := r.2.2.1

def recAmount (r : Rec4) : List Char := r.2.2.2

/-- Text of capture group `idx`. -/
def capStr (s : List Char) (caps : List Cap) (idx : Nat) : List Char :=
  match caps.find? (fun c => c.1 == idx) with
  | some (_, a, b) => slice s a b
  | none => []

/-- Assemble the 4-tuple `re.findall` yields for one match. -/
def recOf (s : List Char) (caps : List Cap) : Rec4 :=
  (capStr s caps 1, capStr s caps 2, capStr s caps 3, capStr s caps 4)

/-- Left-to-right non-overlapping scan, as `re.findall`: try each start
offset in order, emit the match found and resume at its end (advancing
at least one position).  `steps` bounds the number of scan iterations;
each iteration advances the offset, so `s.length + 1` suffices from
offset 0. -/
def scanFrom (s : List Char) : Nat → Nat → List Rec4
  | _, 0 => []
  | i, steps + 1 =>
    match matchAt s i with
    | some (caps, j) => recOf s caps :: scanFrom s (max j (i + 1)) steps
    | none =>
      if i ≤ s.length then scanFrom s (i + 1) steps else []

/-- `re.findall(pattern, text)` of `extract_property_data`. -/
def findall (text : List Char) : List Rec4 := scanFrom text 0 (text.length + 1)

/-- The core of `extract_property_data` after page-text concatenation:
apply the pattern; an empty match list is the reported
"No matches found" outcome (`return False`, modelled `none`) and no
table is built; otherwise the table of records in discovery order is
produced (`return True`, modelled `some`).  The function is total:
no exception escapes this stage. -/
def extract_property_data (text : List Char) : Option (List Rec4) :=
  let ms := findall text
  if ms.isEmpty then none else some ms

/-- A cell value: a string, a numeric score, or null (Python `None`,
pandas `NaN`). -/
inductive Val : Type where
  | str (s : String)
  | nat (n : Nat)
  | null
deriving DecidableEq

/-- A row is an association list from column names to values. -/
abbrev Row := List (String × Val)

abbrev Table := List Row

/-- Column access on a row (first occurrence of the name). -/
def getCol (r : Row) (k : String) : Option Val :=
  (r.find? (fun kv => kv.1 == k)).map (fun kv => kv.2)

def rowKeys (r : Row) : List String := r.map (fun kv => kv.1)

/-- Column assignment on a row: replace the column if present
(modelled as remove-then-append; column order is not load-bearing for
any property below), else append it. -/
def setCol (r : Row) (k : String) (v : Val) : Row :=
  r.filter (fun kv => !(kv.1 == k)) ++ [(k, v)]

/-- Effectful map over a list, propagating the first error, written as
plain recursion. -/
def mapE {α β : Type} (f : α → Except String β) : List α → Except String (List β)
  | [] => Except.ok []
  | a :: as =>
    match f a with
    | Except.error e => Except.error e
    | Except.ok b =>
      match mapE f as with
      | Except.error e => Except.error e
      | Except.ok bs => Except.ok (b :: bs)

/-- One row of `df[dst] = df[src]`: reading a missing column raises
`KeyError`, modelled as `Except.error`. -/
def copyColRow (src dst : String) (r : Row) : Except String Row :=
  match getCol r src with
  | some v => Except.ok (setCol r dst v)
  | none => Except.error ("KeyError: " ++ src)

/-- `df[dst] = df[src]` over the whole table. -/
def copyCol (t : Table) (src dst : String) : Except String Table :=
  mapE (copyColRow src dst) t

/-- The schema of a table, read off its first row (rows produced by
this pipeline are uniform). -/
def tableCols (t : Table) : List String := (t.head?.map rowKeys).getD []

/-- Combine rows for a merge on a shared column name: the right copy of
the `on` column is dropped, as pandas keeps a single copy. -/
def combineOn (onK : String) (lr rr : Row) : Row :=
  lr ++ rr.filter (fun kv => !(kv.1 == onK))

/-- `pd.merge(l, r, on=onK, how='left')`: left rows in order; each
joins every right row with an equal key, and a left row with no
partner keeps the right columns null-filled. -/
def leftMerge (onK : String) (l r : Table) : Table :=
  l.flatMap fun lr =>
    let ms := r.filter (fun rr => getCol rr onK == getCol lr onK)
    if ms.isEmpty then
      [lr ++ ((tableCols r).filter (fun k => !(k == onK))).map (fun k => (k, Val.null))]
    else ms.map (combineOn onK lr)

/-- Right-hand column names colliding with the left row are suffixed
`_shp`, as in `suffixes=('', '_shp')`. -/
def suffixKey (lks : List String) (k : String) : String :=
  if k ∈ lks then k ++ "_shp" else k

/-- `l.merge(r, left_on=lkey, right_on=rkey, suffixes=('', '_shp'))`:
the pandas default inner join, preserving left order, fanning out on
duplicate right keys, keeping both key columns. -/
def innerMergeLR (lkey rkey : String) (l r : Table) : Table :=
  l.flatMap fun lr =>
    (r.filter (fun rr => getCol rr rkey == getCol lr lkey)).map
      (fun rr => lr ++ rr.map (fun kv => (suffixKey (rowKeys lr) kv.1, kv.2)))

/-- `rapidfuzz.process.extractOne(q, choices, scorer=scorer)`: the
first highest-scoring choice and its score, `none` when `choices` is
empty.  (The index rapidfuzz also returns is discarded by the caller
via `_` and is not modelled.) -/
def extractOne (scorer : Val → Val → Nat) (q : Val) : List Val → Option (Val × Nat)
  | [] => none
  | c :: cs =>
    match extractOne scorer q cs with
    | none => some (c, scorer q c)
    | some (m, s) => if scorer q c < s then some (m, s) else some (c, scorer q c)

/-- `get_best_match`: unpacking the `None` that `extractOne` yields on
an empty choice sequence raises a `TypeError`, modelled as
`Except.error`; otherwise the match is accepted iff `score >=
threshold`, the score being returned either way. -/
def get_best_match (scorer : Val → Val → Nat) (threshold : Nat) (q : Val)
    (choices : List Val) : Except String (Option Val × Nat) :=
  match extractOne scorer q choices with
  | none => Except.error "TypeError: cannot unpack non-iterable NoneType object"
  | some (m, s) => if threshold ≤ s then Except.ok (some m, s) else Except.ok (none, s)

/-- One row of the in-loop `matches` list:
`{'Standard Address': addr, 'Matched Address': best_match, 'Score': score}`,
with Python `None` becoming null. -/
def matchRowOf (addr : Val) (m : Option Val) (s : Nat) : Row :=
  [("Standard Address", addr), ("Matched Address", m.getD Val.null), ("Score", Val.nat s)]

/-- One iteration of the matching loop of `fuzzy_match_addresses`. -/
def matchOne (scorer : Val → Val → Nat) (threshold : Nat) (choices : List Val)
    (addr : Val) : Except String Row :=
  (get_best_match scorer threshold addr choices).map (fun ms => matchRowOf addr ms.1 ms.2)

def buildMatches (scorer : Val → Val → Nat) (threshold : Nat) (choices : List Val)
    (addrs : List Val) : Except String Table :=
  mapE (matchOne scorer threshold choices) addrs

/-- The `Score < 100` row predicate of the imperfect-match filter (a
non-numeric or absent score compares false, as a pandas NaN would). -/
def scoreLt100 (r : Row) : Bool :=
  match getCol r "Score" with
  | some (Val.nat n) => n < 100
  | _ => false

/-- The values of the `Standard Address` column. -/
def stdAddrs (t : Table) : List Val := t.filterMap (fun r => getCol r "Standard Address")

/-- `fuzzy_match_addresses`, parameterised by scorer and threshold as
in the spec's resolver contract (the script instantiates
`fuzz.token_sort_ratio` and 25): copy the address columns, match each
input address against the reference addresses, left-merge the match
results onto the input on `Standard Address`, inner-merge the
reference attributes on `Matched Address` = reference `Standard
Address`, and filter the `Score < 100` subset.  Result: the linked
table and the imperfect-match table. -/
def fuzzy_match_addresses (scorer : Val → Val → Nat) (threshold : Nat)
    (csv_df shapefile_gdf : Table) : Except String (Table × Table) :=
  match copyCol csv_df "Address" "Standard Address" with
  | Except.error e => Except.error e
  | Except.ok csvStd =>
    match copyCol shapefile_gdf "SITEADDR" "Standard Address" with
    | Except.error e => Except.error e
    | Except.ok shpStd =>
      match buildMatches scorer threshold (stdAddrs shpStd) (stdAddrs csvStd) with
      | Except.error e => Except.error e
      | Except.ok ms =>
        let result1 := leftMerge "Standard Address" csvStd ms
        let result2 := innerMergeLR "Matched Address" "Standard Address" result1 shpStd
        Except.ok (result2, result2.filter scoreLt100)

/-- Scorer of the `[100, 87, 100, 40]` scenario from the spec. -/
def scC7 : Val → Val → Nat := fun q _ =>
  if q = Val.str "A" then 100
  else if q = Val.str "B" then 87
  else if q = Val.str "C" then 100
  else 40

def csvC7 : Table :=
  [[("Address", Val.str "A")], [("Address", Val.str "B")],
   [("Address", Val.str "C")], [("Address", Val.str "D")]]

def shpC7 : Table := [[("SITEADDR", Val.str "R")]]

/-- One linked row of the `[100, 87, 100, 40]` scenario. -/
def rowC7 (a : String) (s : Nat) : Row :=
  [("Address", Val.str a), ("Standard Address", Val.str a),
   ("Matched Address", Val.str "R"), ("Score", Val.nat s),
   ("SITEADDR", Val.str "R"), ("Standard Address_shp", Val.str "R")]

def linkedC7 : Table := [rowC7 "A" 100, rowC7 "B" 87, rowC7 "C" 100, rowC7 "D" 40]

def lowC7 : Table := [rowC7 "B" 87, rowC7 "D" 40]

def csvW : Table := [[("Address", Val.str "A")]]

def shpW : Table := [[("SITEADDR", Val.str "A")]]

def shpStdW : Table := [[("SITEADDR", Val.str "A"), ("Standard Address", Val.str "A")]]

def linkedW : Table :=
  [[("Address", Val.str "A"), ("Standard Address", Val.str "A"),
    ("Matched Address", Val.str "A"), ("Score", Val.nat 100),
    ("SITEADDR", Val.str "A"), ("Standard Address_shp", Val.str "A")]]

/-- `RMatch s re i j cs`: `re` can match the text of `s` from offset
`i` up to `j`, producing capture list `cs` (most recent first, as the
matcher accumulates them). -/
inductive RMatch (s : List Char) : RE → Nat → Nat → List Cap → Prop where
  | cls {p : Char → Bool} {i : Nat} {c : Char} (hget : s.get? i = some c)
      (hp : p c = true) : RMatch s (RE.cls p) i (i + 1) []
  | eps {i : Nat} : RMatch s RE.eps i i []
  | seq {a b : RE} {i j k : Nat} {ca cb : List Cap} (ha : RMatch s a i j ca)
      (hb : RMatch s b j k cb) : RMatch s (RE.seq a b) i k (cb ++ ca)
  | optSome {a : RE} {i j : Nat} {ca : List Cap} (h : RMatch s a i j ca) :
      RMatch s (RE.opt a) i j ca
  | optNone {a : RE} {i : Nat} : RMatch s (RE.opt a) i i []
  | starNil {a : RE} {i : Nat} : RMatch s (RE.star a) i i []
  | starCons {a : RE} {i j k : Nat} {ca cr : List Cap} (h1 : RMatch s a i j ca)
      (h2 : RMatch s (RE.star a) j k cr) : RMatch s (RE.star a) i k (cr ++ ca)
  | plusOne {a : RE} {i j : Nat} {ca : List Cap} (h : RMatch s a i j ca) :
      RMatch s (RE.plusLazy a) i j ca
  | plusMore {a : RE} {i j k : Nat} {ca cr : List Cap} (h1 : RMatch s a i j ca)
      (h2 : RMatch s (RE.plusLazy a) j k cr) : RMatch s (RE.plusLazy a) i k (cr ++ ca)
  | group {a : RE} {idx i j : Nat} {ca : List Cap} (h : RMatch s a i j ca) :
      RMatch s (RE.group idx a) i j ((idx, i, j) :: ca)

/-- Syntactic absence of capture groups. -/
def noGroups : RE → Bool
  | RE.cls _ => true
  | RE.eps => true
  | RE.seq a b => noGroups a && noGroups b
  | RE.opt a => noGroups a
  | RE.star a => noGroups a
  | RE.plusLazy a => noGroups a
  | RE.group _ _ => false

/-- Zero or more `,ddd` blocks. -/
def commaBlocks : List Char → Bool
  | [] => true
  | c0 :: a :: b :: c :: rest =>
    c0 == ',' && a.isDigit && b.isDigit && c.isDigit && commaBlocks rest
  | _ => false

/-- Zero or more `,ddd` blocks followed by `.dd` at the very end. -/
def centsTail : List Char → Bool
  | [p, a, b] => p == '.' && a.isDigit && b.isDigit
  | c0 :: a :: b :: c :: rest =>
    c0 == ',' && a.isDigit && b.isDigit && c.isDigit && centsTail rest
  | _ => false

/-- The shape of the amount grammar
`\d{1,3}(?:,\d{3})*(?:\.\d{2})`: one to three leading digits, then
comma-separated three-digit groups, then a period and exactly two
digits. -/
def isAmountShape (l : List Char) : Bool :=
  decide (1 ≤ (l.takeWhile Char.isDigit).length) &&
    decide ((l.takeWhile Char.isDigit).length ≤ 3) &&
    centsTail (l.dropWhile Char.isDigit)

/-- The shape of the identifier grammar `\d{3}-\d{3}(?:-\d{3})?`. -/
def isIdShape (l : List Char) : Bool :=
  match l with
  | [a, b, c, m1, d, e, f] =>
    a.isDigit && b.isDigit && c.isDigit && m1 == '-' && d.isDigit && e.isDigit && f.isDigit
  | [a, b, c, m1, d, e, f, m2, g, x, y] =>
    a.isDigit && b.isDigit && c.isDigit && m1 == '-' && d.isDigit && e.isDigit &&
      f.isDigit && m2 == '-' && g.isDigit && x.isDigit && y.isDigit
  | _ => false

/-- The shape of the street-address grammar `\d{1,5}\s[\w\s\.\x27\-]+?`:
one to five leading digits, a whitespace character, and at least one
further character of the class. -/
def isAddrShape (l : List Char) : Bool :=
  decide (1 ≤ (l.takeWhile Char.isDigit).length) &&
    decide ((l.takeWhile Char.isDigit).length ≤ 5) &&
    (match l.dropWhile Char.isDigit with
     | w :: rest => isSpaceChar w && decide (rest ≠ []) && rest.all addrChar
     | [] => false)

/-- The amount ends with a period and exactly two decimal digits. -/
def endsWithCents (l : List Char) : Bool :=
  match l.reverse with
  | e :: d :: p :: _ => p == '.' && d.isDigit && e.isDigit
  | _ => false

/-- Concrete text for the shape witnesses. -/
def textShapes : List Char := "111-222 A B 9 Oak St. $12.00".toList

/-- The record extracted from `textShapes`. -/
def recShapes : Rec4 :=
  ("111-222".toList, "A B".toList, "9 Oak St.".toList, "12.00".toList)

theorem getCol_append_left {l r2 : Row} {k : String} {v : Val} (h : getCol l k = some v) :
    getCol (l ++ r2) k = some v := by
  unfold getCol at h ⊢
  rw [List.find?_append]
  cases hf : List.find? (fun kv => kv.1 == k) l with
  | none => rw [hf] at h; simp at h
  | some kv =>
    rw [hf] at h
    simpa using h

theorem getCol_append_right {l r2 : Row} {k : String} (h : getCol l k = none) :
    getCol (l ++ r2) k = getCol r2 k := by
  unfold getCol at h ⊢
  rw [List.find?_append]
  cases hf : List.find? (fun kv => kv.1 == k) l with
  | none => simp
  | some kv => rw [hf] at h; simp at h

theorem getCol_filter_ne (r : Row) (k : String) :
    getCol (r.filter (fun kv => !(kv.1 == k))) k = none := by
  unfold getCol
  have hnone : List.find? (fun kv => kv.1 == k) (r.filter (fun kv => !(kv.1 == k))) = none := by
    rw [List.find?_eq_none]
    intro x hx
    simpa using (List.mem_filter.mp hx).2
  simp [hnone]

theorem getCol_setCol_same (r : Row) (k : String) (v : Val) :
    getCol (setCol r k v) k = some v := by
  unfold setCol
  rw [getCol_append_right (getCol_filter_ne r k)]
  simp [getCol, List.find?]

/-- Removing entries that a predicate never selects does not change a
search result. -/
theorem find?_filter_of_imp {α : Type} (p q : α → Bool) (l : List α)
    (himp : ∀ x, q x = true → p x = true) :
    List.find? q (l.filter p) = List.find? q l := by
  induction l with
  | nil => rfl
  | cons x xs ih =>
    cases hp : p x with
    | true =>
      rw [List.filter_cons_of_pos hp]
      cases hq : q x with
      | true => rw [List.find?_cons_of_pos _ hq, List.find?_cons_of_pos _ hq]
      | false =>
        rw [List.find?_cons_of_neg _ (by simp [hq]), List.find?_cons_of_neg _ (by simp [hq])]
        exact ih
    | false =>
      rw [List.filter_cons_of_neg (by simp [hp])]
      have hq : q x = false := by
        cases hqt : q x with
        | true => exact absurd (himp x hqt) (by simp [hp])
        | false => rfl
      rw [List.find?_cons_of_neg _ (by simp [hq])]
      exact ih

theorem getCol_setCol_ne {k2 k : String} (r : Row) (v : Val) (h : ¬(k2 = k)) :
    getCol (setCol r k v) k2 = getCol r k2 := by
  unfold setCol
  have hfil : List.find? (fun kv => kv.1 == k2) (r.filter (fun kv => !(kv.1 == k))) =
      List.find? (fun kv => kv.1 == k2) r := by
    apply find?_filter_of_imp
    intro x hx
    have hxk : x.1 = k2 := by simpa using hx
    simp only [hxk]
    simpa using fun he => h he
  have hk : ((k : String) == k2) = false := by
    simpa using fun he => h he.symm
  cases hf : List.find? (fun kv => kv.1 == k2) r with
  | some kv =>
    have hl : getCol (r.filter (fun kv => !(kv.1 == k))) k2 = some kv.2 := by
      unfold getCol
      rw [hfil, hf]
      rfl
    rw [getCol_append_left hl]
    unfold getCol
    rw [hf]
    rfl
  | none =>
    have hl : getCol (r.filter (fun kv => !(kv.1 == k))) k2 = none := by
      unfold getCol
      rw [hfil, hf]
      rfl
    rw [getCol_append_right hl]
    unfold getCol
    rw [hf]
    simp [List.find?, hk]

/-- Every row of the input reappears in the output of a column copy,
with the destination column set. -/
theorem copyCol_mem {t t2 : Table} {src dst : String}
    (h : copyCol t src dst = Except.ok t2) :
    ∀ r ∈ t, ∃ v, getCol r src = some v ∧ setCol r dst v ∈ t2 := by
  induction t generalizing t2 with
  | nil => intro r hr; simp at hr
  | cons r0 rest ih =>
    intro r hr
    simp only [copyCol, mapE] at h
    cases h0 : copyColRow src dst r0 with
    | error e => rw [h0] at h; exact Except.noConfusion h
    | ok b =>
      rw [h0] at h
      cases h1 : mapE (copyColRow src dst) rest with
      | error e => rw [h1] at h; exact Except.noConfusion h
      | ok bs =>
        rw [h1] at h
        injection h with h2
        subst h2
        rcases List.mem_cons.mp hr with rfl | hr2
        · cases hv : getCol r src with
          | none => simp [copyColRow, hv] at h0
          | some v =>
            refine ⟨v, rfl, ?_⟩
            have : b = setCol r dst v := by
              simp [copyColRow, hv] at h0
              exact h0.symm
            simp [this]
        · obtain ⟨v, hv1, hv2⟩ := ih h1 r hr2
          exact ⟨v, hv1, by simp [hv2]⟩

/-- Every address of the loop input yields its own match row in the
match table. -/
theorem buildMatches_mem {scorer : Val → Val → Nat} {threshold : Nat} {choices : List Val}
    {addrs : List Val} {ms : Table}
    (h : buildMatches scorer threshold choices addrs = Except.ok ms) :
    ∀ a ∈ addrs, ∀ mm ss, get_best_match scorer threshold a choices = Except.ok (mm, ss) →
      matchRowOf a mm ss ∈ ms := by
  induction addrs generalizing ms with
  | nil => intro a ha; simp at ha
  | cons a0 rest ih =>
    intro a ha mm ss hg
    simp only [buildMatches, mapE] at h
    cases h0 : matchOne scorer threshold choices a0 with
    | error e => rw [h0] at h; exact Except.noConfusion h
    | ok b =>
      rw [h0] at h
      cases h1 : mapE (matchOne scorer threshold choices) rest with
      | error e => rw [h1] at h; exact Except.noConfusion h
      | ok bs =>
        rw [h1] at h
        injection h with h2
        subst h2
        rcases List.mem_cons.mp ha with rfl | ha2
        · have : b = matchRowOf a mm ss := by
            simp [matchOne, hg, Except.map] at h0
            exact h0.symm
          simp [this]
        · exact List.mem_cons_of_mem _ (ih h1 a ha2 mm ss hg)

/-- A left-merge contains the combination of any left row with any
key-equal right row. -/
theorem leftMerge_mem {onK : String} {l r : Table} {lr rr : Row}
    (hl : lr ∈ l) (hr : rr ∈ r) (hk : (getCol rr onK == getCol lr onK) = true) :
    combineOn onK lr rr ∈ leftMerge onK l r := by
  unfold leftMerge
  refine List.mem_flatMap.mpr ⟨lr, hl, ?_⟩
  have hmem : rr ∈ r.filter (fun rr2 => getCol rr2 onK == getCol lr onK) :=
    List.mem_filter.mpr ⟨hr, hk⟩
  have hne : (r.filter (fun rr2 => getCol rr2 onK == getCol lr onK)).isEmpty = false := by
    cases hfe : r.filter (fun rr2 => getCol rr2 onK == getCol lr onK) with
    | nil => rw [hfe] at hmem; simp at hmem
    | cons x xs => simp
  simp only [hne, Bool.false_eq_true, if_false]
  exact List.mem_map_of_mem _ hmem

/-- An inner merge contains the combination of any left row with any
key-equal right row. -/
theorem innerMergeLR_mem {lkey rkey : String} {l r : Table} {lr rr : Row}
    (hl : lr ∈ l) (hr : rr ∈ r) (hk : (getCol rr rkey == getCol lr lkey) = true) :
    (lr ++ rr.map (fun kv => (suffixKey (rowKeys lr) kv.1, kv.2))) ∈
      innerMergeLR lkey rkey l r := by
  unfold innerMergeLR
  refine List.mem_flatMap.mpr ⟨lr, hl, ?_⟩
  exact List.mem_map_of_mem _ (List.mem_filter.mpr ⟨hr, hk⟩)

/-- Destructuring a successful resolver run into its stages. -/
theorem fuzzy_run_ok {scorer : Val → Val → Nat} {threshold : Nat}
    {csv shp linked low : Table}
    (h : fuzzy_match_addresses scorer threshold csv shp = Except.ok (linked, low)) :
    ∃ csvStd shpStd ms,
      copyCol csv "Address" "Standard Address" = Except.ok csvStd ∧
      copyCol shp "SITEADDR" "Standard Address" = Except.ok shpStd ∧
      buildMatches scorer threshold (stdAddrs shpStd) (stdAddrs csvStd) = Except.ok ms ∧
      linked = innerMergeLR "Matched Address" "Standard Address"
        (leftMerge "Standard Address" csvStd ms) shpStd ∧
      low = linked.filter scoreLt100 := by
  unfold fuzzy_match_addresses at h
  cases h1 : copyCol csv "Address" "Standard Address" with
  | error e => simp only [h1] at h; exact Except.noConfusion h
  | ok csvStd =>
    simp only [h1] at h
    cases h2 : copyCol shp "SITEADDR" "Standard Address" with
    | error e => simp only [h2] at h; exact Except.noConfusion h
    | ok shpStd =>
      simp only [h2] at h
      cases h3 : buildMatches scorer threshold (stdAddrs shpStd) (stdAddrs csvStd) with
      | error e => simp only [h3] at h; exact Except.noConfusion h
      | ok ms =>
        simp only [h3, Except.ok.injEq, Prod.mk.injEq] at h
        obtain ⟨hfst, hsnd⟩ := h
        refine ⟨csvStd, shpStd, ms, rfl, rfl, h3, hfst.symm, ?_⟩
        rw [← hsnd, ← hfst]

/-- C5: on raw text consisting of exactly the literal well-formed record
`123-456-789 JOHN DOE 456 Main St. $1,234.56`, extraction returns
exactly one record whose four fields are `123-456-789`, `JOHN DOE`,
`456 Main St.` and `1,234.56` — the currency symbol is excluded from
the amount field. -/
theorem extract_single_literal_record :
    extract_property_data ("123-456-789 JOHN DOE 456 Main St. $1,234.56".toList) =
      some [("123-456-789".toList, "JOHN DOE".toList, "456 Main St.".toList,
        "1,234.56".toList)] := by
  rfl

/-- C6: raw text in which the pattern finds nothing yields the reported
"no records found" outcome — an ordinary failure value, not an
exception — and no output table is built. -/
theorem extract_zero_matches_reported (text : List Char) (h : findall text = []) :
    extract_property_data text = none := by
  simp [extract_property_data, h]

theorem extract_zero_matches_reported_witness :
    findall ("SHERIFF SALE LIST PAGE ONE".toList) = [] ∧
      extract_property_data ("SHERIFF SALE LIST PAGE ONE".toList) = none :=
  ⟨by rfl, extract_zero_matches_reported _ (by rfl)⟩

/-- C2 (code bug): against an empty reference set,
`process.extractOne` returns `None`, and the tuple unpacking
`match, score, _ = ...` in `get_best_match` raises a `TypeError`
instead of recording "no match" with a sentinel score; the exception
propagates out of the matching loop for any non-empty address set. -/
theorem empty_reference_unpack_raises :
    (∀ (scorer : Val → Val → Nat) (threshold : Nat) (q : Val),
        get_best_match scorer threshold q [] =
          Except.error "TypeError: cannot unpack non-iterable NoneType object") ∧
      fuzzy_match_addresses (fun _ _ => 0) 25 [[("Address", Val.str "123 MAIN ST")]] [] =
        Except.error "TypeError: cannot unpack non-iterable NoneType object" := by
  exact ⟨fun _ _ _ => rfl, rfl⟩

/-- On a non-empty choice list `extractOne` returns the first
highest-scoring choice: it is a member, carries its own score, and no
choice scores strictly higher. -/
theorem extractOne_best (scorer : Val → Val → Nat) (q : Val) :
    ∀ choices : List Val, choices ≠ [] →
      ∃ m s, extractOne scorer q choices = some (m, s) ∧ m ∈ choices ∧ scorer q m = s ∧
        ∀ c ∈ choices, scorer q c ≤ s := by
  intro choices
  induction choices with
  | nil => intro h; exact absurd rfl h
  | cons c cs ih =>
    intro _
    cases cs with
    | nil =>
      exact ⟨c, scorer q c, by simp [extractOne], by simp, rfl, by simp⟩
    | cons c2 cs2 =>
      obtain ⟨m, s, h1, h2, h3, h4⟩ := ih (by simp)
      by_cases hlt : scorer q c < s
      · refine ⟨m, s, ?_, List.mem_cons_of_mem _ h2, h3, ?_⟩
        · simp only [extractOne] at h1 ⊢
          rw [h1]
          simp [hlt]
        · intro x hx
          rcases List.mem_cons.mp hx with rfl | hx2
          · omega
          · exact h4 x hx2
      · refine ⟨c, scorer q c, ?_, by simp, rfl, ?_⟩
        · simp only [extractOne] at h1 ⊢
          rw [h1]
          simp [hlt]
        · intro x hx
          rcases List.mem_cons.mp hx with rfl | hx2
          · exact Nat.le_refl _
          · have := h4 x hx2; omega

/-- C4: for every scorer and threshold, on a non-empty reference set
`get_best_match` computes the best score `s` over the reference set
and accepts (returning the best-scoring match) exactly when
`threshold ≤ s`, rejecting as "no match" — with the numeric score
still returned — exactly when `s < threshold`: closed above, open
below. -/
theorem threshold_boundary (scorer : Val → Val → Nat) (threshold : Nat) (q : Val)
    (choices : List Val) (h : choices ≠ []) :
    ∃ m s, extractOne scorer q choices = some (m, s) ∧ m ∈ choices ∧ scorer q m = s ∧
      (∀ c ∈ choices, scorer q c ≤ s) ∧
      (threshold ≤ s → get_best_match scorer threshold q choices = Except.ok (some m, s)) ∧
      (s < threshold → get_best_match scorer threshold q choices = Except.ok (none, s)) := by
  obtain ⟨m, s, h1, h2, h3, h4⟩ := extractOne_best scorer q choices h
  refine ⟨m, s, h1, h2, h3, h4, ?_, ?_⟩
  · intro hge
    simp [get_best_match, h1, hge]
  · intro hlt
    simp [get_best_match, h1, Nat.not_le.mpr hlt]

theorem threshold_boundary_witness :
    ([Val.str "REF"] ≠ ([] : List Val)) ∧
      (∃ m s, extractOne (fun _ _ => 25) (Val.str "Q") [Val.str "REF"] = some (m, s) ∧
        m ∈ [Val.str "REF"] ∧ 25 = s ∧ (∀ c ∈ [Val.str "REF"], 25 ≤ s) ∧
        (25 ≤ s →
          get_best_match (fun _ _ => 25) 25 (Val.str "Q") [Val.str "REF"] =
            Except.ok (some m, s)) ∧
        (s < 25 →
          get_best_match (fun _ _ => 25) 25 (Val.str "Q") [Val.str "REF"] =
            Except.ok (none, s))) :=
  ⟨by decide, threshold_boundary (fun _ _ => 25) 25 (Val.str "Q") [Val.str "REF"] (by decide)⟩

/-- C8: when the input table lacks the `Address` column, the very
first step of `fuzzy_match_addresses` raises `KeyError` — for every
scorer, threshold and reference table alike, so no scoring happens and
no output (partial or otherwise) is produced. -/
theorem missing_address_column_fails_first (scorer : Val → Val → Nat) (threshold : Nat)
    (csv shp : Table) (hne : csv ≠ []) (h : ∀ r ∈ csv, getCol r "Address" = none) :
    fuzzy_match_addresses scorer threshold csv shp = Except.error "KeyError: Address" := by
  cases csv with
  | nil => exact absurd rfl hne
  | cons r rest =>
    have h0 : getCol r "Address" = none := h r (by simp)
    have hrow : copyColRow "Address" "Standard Address" r =
        Except.error "KeyError: Address" := by
      unfold copyColRow
      rw [h0]
      rfl
    have hc : copyCol (r :: rest) "Address" "Standard Address" =
        Except.error "KeyError: Address" := by
      simp only [copyCol, mapE, hrow]
    unfold fuzzy_match_addresses
    rw [hc]

theorem missing_address_column_fails_first_witness :
    (([[("Owner", Val.str "DOE")]] : Table) ≠ []) ∧
      fuzzy_match_addresses (fun _ _ => 0) 25 [[("Owner", Val.str "DOE")]] [] =
        Except.error "KeyError: Address" :=
  ⟨by decide,
    missing_address_column_fails_first (fun _ _ => 0) 25 [[("Owner", Val.str "DOE")]] []
      (by decide) (by decide)⟩

/-- On a non-empty choice list `get_best_match` never raises. -/
theorem get_best_match_ok (scorer : Val → Val → Nat) (threshold : Nat) (q : Val)
    (choices : List Val) (h : choices ≠ []) :
    ∃ m s, get_best_match scorer threshold q choices = Except.ok (m, s) := by
  obtain ⟨m, s, h1, _, _, _⟩ := extractOne_best scorer q choices h
  by_cases hth : threshold ≤ s
  · exact ⟨some m, s, by simp [get_best_match, h1, hth]⟩
  · exact ⟨none, s, by simp [get_best_match, h1, hth]⟩

/-- C3: against a non-empty reference set, the matching loop yields
exactly one match row per input address — never zero, never more than
one — in input order and without deduplication, so an address
occurring `k` times in the input contributes exactly `k` rows to the
match side of the join. -/
theorem one_match_result_per_address (scorer : Val → Val → Nat) (threshold : Nat)
    (choices : List Val) (addrs : List Val) (h : choices ≠ []) :
    ∃ ms : Table, buildMatches scorer threshold choices addrs = Except.ok ms ∧
      ms.length = addrs.length ∧
      (∀ i : Nat, i < addrs.length →
        ∃ a m s, addrs.get? i = some a ∧
          get_best_match scorer threshold a choices = Except.ok (m, s) ∧
          ms.get? i = some (matchRowOf a m s)) ∧
      (∀ a : Val,
        ms.countP (fun row => getCol row "Standard Address" == some a) = addrs.count a) := by
  induction addrs with
  | nil => exact ⟨[], rfl, rfl, by simp, by simp⟩
  | cons a rest ih =>
    obtain ⟨ms, hms, hlen, hidx, hcount⟩ := ih
    obtain ⟨m, s, hg⟩ := get_best_match_ok scorer threshold a choices h
    have hone : matchOne scorer threshold choices a = Except.ok (matchRowOf a m s) := by
      unfold matchOne
      rw [hg]
      rfl
    have hrec : buildMatches scorer threshold choices (a :: rest) =
        Except.ok (matchRowOf a m s :: ms) := by
      have hstep : mapE (matchOne scorer threshold choices) rest = Except.ok ms := hms
      simp only [buildMatches, mapE, hone, hstep]
    refine ⟨matchRowOf a m s :: ms, hrec, by simp [hlen], ?_, ?_⟩
    · intro i hi
      cases i with
      | zero => exact ⟨a, m, s, rfl, hg, rfl⟩
      | succ n =>
        obtain ⟨a2, m2, s2, h1, h2, h3⟩ := hidx n (by simpa using hi)
        exact ⟨a2, m2, s2, by simpa using h1, h2, by simpa using h3⟩
    · intro x
      have hkey : getCol (matchRowOf a m s) "Standard Address" = some a := rfl
      simp only [List.countP_cons, List.count_cons, hkey, hcount x]
      by_cases hax : a = x
      · subst hax; simp
      · simp [beq_iff_eq, hax, Ne.symm hax]

theorem one_match_result_per_address_witness :
    ([Val.str "R"] ≠ ([] : List Val)) ∧
      (∃ ms : Table,
        buildMatches (fun _ _ => 50) 25 [Val.str "R"] [Val.str "X", Val.str "X", Val.str "Y"] =
          Except.ok ms ∧
        ms.length = [Val.str "X", Val.str "X", Val.str "Y"].length ∧
        (∀ i : Nat, i < [Val.str "X", Val.str "X", Val.str "Y"].length →
          ∃ a m s, [Val.str "X", Val.str "X", Val.str "Y"].get? i = some a ∧
            get_best_match (fun _ _ => 50) 25 a [Val.str "R"] = Except.ok (m, s) ∧
            ms.get? i = some (matchRowOf a m s)) ∧
        (∀ a : Val,
          ms.countP (fun row => getCol row "Standard Address" == some a) =
            [Val.str "X", Val.str "X", Val.str "Y"].count a)) :=
  ⟨by decide, one_match_result_per_address (fun _ _ => 50) 25 [Val.str "R"]
    [Val.str "X", Val.str "X", Val.str "Y"] (by decide)⟩

/-- C7: the low-confidence output of a successful resolver run is
exactly the rows of the linked table whose `Score` is strictly below
100 — same rows (hence same schema), in their original relative
order. -/
theorem low_confidence_subset (scorer : Val → Val → Nat) (threshold : Nat)
    (csv shp linked low : Table)
    (h : fuzzy_match_addresses scorer threshold csv shp = Except.ok (linked, low)) :
    low = linked.filter scoreLt100 ∧ low.Sublist linked ∧
      ∀ row : Row, row ∈ low ↔ row ∈ linked ∧ scoreLt100 row = true := by
  obtain ⟨csvStd, shpStd, ms, h1, h2, h3, hlink, hlow⟩ := fuzzy_run_ok h
  refine ⟨hlow, ?_, ?_⟩
  · rw [hlow]
    exact List.filter_sublist _
  · intro row
    rw [hlow]
    exact List.mem_filter

theorem low_confidence_subset_witness :
    (fuzzy_match_addresses scC7 25 csvC7 shpC7 = Except.ok (linkedC7, lowC7) ∧
      linkedC7.map (fun r => getCol r "Score") =
        [some (Val.nat 100), some (Val.nat 87), some (Val.nat 100), some (Val.nat 40)]) ∧
      (lowC7 = linkedC7.filter scoreLt100 ∧ lowC7.Sublist linkedC7 ∧
        ∀ row : Row, row ∈ lowC7 ↔ row ∈ linkedC7 ∧ scoreLt100 row = true) :=
  ⟨⟨by rfl, by rfl⟩,
    low_confidence_subset scC7 25 csvC7 shpC7 linkedC7 lowC7 (by rfl)⟩

/-- C1 counterexample: with the all-zero scorer (scores below the
threshold 25), the single input record resolves to "no match", and the
second (inner) merge of `fuzzy_match_addresses` drops it — the run
succeeds with an empty linked table, so not every input record appears
in the linked output. -/
theorem no_match_record_dropped_counterexample :
    ¬ (∀ linked low : Table,
        fuzzy_match_addresses (fun _ _ => 0) 25 [[("Address", Val.str "AAA")]]
            [[("SITEADDR", Val.str "ZZZ")]] = Except.ok (linked, low) →
        ∀ r ∈ ([[("Address", Val.str "AAA")]] : Table), ∃ row, row ∈ linked ∧
          getCol row "Address" = getCol r "Address") := by
  intro hclaim
  obtain ⟨row, hrow, _⟩ :=
    hclaim [] [] (by rfl) [("Address", Val.str "AAA")] (by decide)
  exact absurd hrow (by simp)

/-- An accepted best match is drawn from the choice list. -/
theorem get_best_match_accepted_mem {scorer : Val → Val → Nat} {threshold : Nat}
    {q m : Val} {s : Nat} {choices : List Val}
    (h : get_best_match scorer threshold q choices = Except.ok (some m, s)) :
    m ∈ choices := by
  have hne : choices ≠ [] := by
    intro hc
    subst hc
    exact Except.noConfusion h
  obtain ⟨m2, s2, h1, h2, h3, h4⟩ := extractOne_best scorer q choices hne
  unfold get_best_match at h
  simp only [h1] at h
  by_cases hth : threshold ≤ s2
  · rw [if_pos hth] at h
    injection h with h5
    obtain ⟨ha, hb⟩ := Prod.mk.injEq .. ▸ h5
    injection ha with ha2
    exact ha2 ▸ h2
  · rw [if_neg hth] at h
    injection h with h5
    obtain ⟨ha, hb⟩ := Prod.mk.injEq .. ▸ h5
    exact absurd ha (by simp)

/-- C1 amended: every input record whose address obtained an accepted
match (best score at or above the threshold) contributes at least one
row to the linked table, carrying its matched address and score.
(Records whose best score fell below the threshold are dropped by the
inner attribute merge — see the counterexample.) -/
theorem linked_keeps_accepted_matches (scorer : Val → Val → Nat) (threshold : Nat)
    (csv shp shpStd linked low : Table)
    (hrun : fuzzy_match_addresses scorer threshold csv shp = Except.ok (linked, low))
    (hshp : copyCol shp "SITEADDR" "Standard Address" = Except.ok shpStd)
    (r : Row) (hr : r ∈ csv) (addr : Val) (haddr : getCol r "Address" = some addr)
    (hma : getCol r "Matched Address" = none) (hsc : getCol r "Score" = none)
    (m : Val) (s : Nat)
    (hacc : get_best_match scorer threshold addr (stdAddrs shpStd) = Except.ok (some m, s)) :
    ∃ row, row ∈ linked ∧ getCol row "Address" = some addr ∧
      getCol row "Matched Address" = some m ∧ getCol row "Score" = some (Val.nat s) := by
  obtain ⟨csvStd, shpStd2, ms, h1, h2, h3, hlink, hlow⟩ := fuzzy_run_ok hrun
  have hsame : shpStd = shpStd2 := by
    rw [hshp] at h2
    injection h2 with he
  subst hsame
  obtain ⟨v, hv, hmem⟩ := copyCol_mem h1 r hr
  rw [haddr] at hv
  injection hv with hv2
  subst hv2
  have hSA : getCol (setCol r "Standard Address" addr) "Standard Address" = some addr :=
    getCol_setCol_same r _ addr
  have hAddr2 : getCol (setCol r "Standard Address" addr) "Address" = some addr := by
    rw [getCol_setCol_ne r addr (by decide)]
    exact haddr
  have hMA2 : getCol (setCol r "Standard Address" addr) "Matched Address" = none := by
    rw [getCol_setCol_ne r addr (by decide)]
    exact hma
  have hSc2 : getCol (setCol r "Standard Address" addr) "Score" = none := by
    rw [getCol_setCol_ne r addr (by decide)]
    exact hsc
  have haddrmem : addr ∈ stdAddrs csvStd := List.mem_filterMap.mpr ⟨_, hmem, hSA⟩
  have hmr : matchRowOf addr (some m) s ∈ ms :=
    buildMatches_mem h3 addr haddrmem (some m) s hacc
  have hkey1 : (getCol (matchRowOf addr (some m) s) "Standard Address" ==
      getCol (setCol r "Standard Address" addr) "Standard Address") = true := by
    rw [hSA]
    simp [matchRowOf, getCol, List.find?]
  have hrow1 := leftMerge_mem hmem hmr hkey1
  have hcomb : combineOn "Standard Address" (setCol r "Standard Address" addr)
      (matchRowOf addr (some m) s) =
      setCol r "Standard Address" addr ++
        [("Matched Address", m), ("Score", Val.nat s)] := rfl
  have hA1 : getCol (combineOn "Standard Address" (setCol r "Standard Address" addr)
      (matchRowOf addr (some m) s)) "Address" = some addr := by
    rw [hcomb]
    exact getCol_append_left hAddr2
  have hM1 : getCol (combineOn "Standard Address" (setCol r "Standard Address" addr)
      (matchRowOf addr (some m) s)) "Matched Address" = some m := by
    rw [hcomb, getCol_append_right hMA2]
    rfl
  have hS1 : getCol (combineOn "Standard Address" (setCol r "Standard Address" addr)
      (matchRowOf addr (some m) s)) "Score" = some (Val.nat s) := by
    rw [hcomb, getCol_append_right hSc2]
    rfl
  have hmmem : m ∈ stdAddrs shpStd := get_best_match_accepted_mem hacc
  obtain ⟨rr, hrr, hrrk⟩ := List.mem_filterMap.mp hmmem
  have hkey2 : (getCol rr "Standard Address" ==
      getCol (combineOn "Standard Address" (setCol r "Standard Address" addr)
        (matchRowOf addr (some m) s)) "Matched Address") = true := by
    rw [hrrk, hM1]
    simp
  have hfinal := innerMergeLR_mem hrow1 hrr hkey2
  rw [← hlink] at hfinal
  exact ⟨_, hfinal, getCol_append_left hA1, getCol_append_left hM1, getCol_append_left hS1⟩

theorem linked_keeps_accepted_matches_witness :
    ∃ row, row ∈ linkedW ∧ getCol row "Address" = some (Val.str "A") ∧
      getCol row "Matched Address" = some (Val.str "A") ∧
      getCol row "Score" = some (Val.nat 100) :=
  linked_keeps_accepted_matches (fun _ _ => 100) 25 csvW shpW shpStdW linkedW []
    (by rfl) (by rfl) [("Address", Val.str "A")] (by decide) (Val.str "A")
    (by rfl) (by rfl) (by rfl) (Val.str "A") 100 (by rfl)

theorem mfirst_eq_some {α : Type} {x : Option α} {y : Unit → Option α} {r : α}
    (h : mfirst x y = some r) : x = some r ∨ (x = none ∧ y () = some r) := by
  cases x with
  | some v => exact Or.inl h
  | none => exact Or.inr ⟨rfl, h⟩

/-- Soundness of the backtracking matcher: a successful run of
`mmatch` is explained by a declarative match whose captures are pushed
onto the incoming capture list. -/
theorem mmatch_sound {α : Type} :
    ∀ (fuel : Nat) (re : RE) (s : List Char) (i : Nat) (caps : List Cap)
      (k : Nat → List Cap → Option α) (r : α),
      mmatch fuel re s i caps k = some r →
      ∃ j cs, RMatch s re i j cs ∧ k j (cs ++ caps) = some r := by
  intro fuel
  induction fuel with
  | zero =>
    intro re s i caps k r h
    exact Option.noConfusion h
  | succ fuel ih =>
    intro re s i caps k r h
    cases re with
    | cls p =>
      simp only [mmatch] at h
      cases hg : s.get? i with
      | none => simp only [hg] at h; exact Option.noConfusion h
      | some c =>
        simp only [hg] at h
        by_cases hp : p c
        · rw [if_pos hp] at h
          exact ⟨i + 1, [], RMatch.cls hg (by simpa using hp), by simpa using h⟩
        · rw [if_neg hp] at h
          exact Option.noConfusion h
    | eps =>
      simp only [mmatch] at h
      exact ⟨i, [], RMatch.eps, by simpa using h⟩
    | seq a b =>
      simp only [mmatch] at h
      obtain ⟨j, ca, hma, h2⟩ := ih a s i caps _ r h
      obtain ⟨j2, cb, hmb, h3⟩ := ih b s j (ca ++ caps) k r h2
      exact ⟨j2, cb ++ ca, RMatch.seq hma hmb, by rw [List.append_assoc]; exact h3⟩
    | opt a =>
      simp only [mmatch] at h
      rcases mfirst_eq_some h with h1 | ⟨h1, h2⟩
      · obtain ⟨j, ca, hma, h3⟩ := ih a s i caps k r h1
        exact ⟨j, ca, RMatch.optSome hma, h3⟩
      · exact ⟨i, [], RMatch.optNone, by simpa using h2⟩
    | star a =>
      simp only [mmatch] at h
      rcases mfirst_eq_some h with h1 | ⟨h1, h2⟩
      · obtain ⟨j, ca, hma, h3⟩ := ih a s i caps _ r h1
        obtain ⟨j2, cr, hmr, h4⟩ := ih (RE.star a) s j (ca ++ caps) k r h3
        exact ⟨j2, cr ++ ca, RMatch.starCons hma hmr, by rw [List.append_assoc]; exact h4⟩
      · exact ⟨i, [], RMatch.starNil, by simpa using h2⟩
    | plusLazy a =>
      simp only [mmatch] at h
      obtain ⟨j, ca, hma, h2⟩ := ih a s i caps _ r h
      rcases mfirst_eq_some h2 with h3 | ⟨h3, h4⟩
      · exact ⟨j, ca, RMatch.plusOne hma, h3⟩
      · obtain ⟨j2, cr, hmr, h5⟩ := ih (RE.plusLazy a) s j (ca ++ caps) k r h4
        exact ⟨j2, cr ++ ca, RMatch.plusMore hma hmr, by rw [List.append_assoc]; exact h5⟩
    | group idx a =>
      simp only [mmatch] at h
      obtain ⟨j, ca, hma, h2⟩ := ih a s i caps _ r h
      exact ⟨j, (idx, i, j) :: ca, RMatch.group hma, by simpa using h2⟩

/-- Every record the scan emits comes from some successful anchored
match attempt. -/
theorem scanFrom_mem {s : List Char} :
    ∀ (steps i : Nat) (rec : Rec4), rec ∈ scanFrom s i steps →
      ∃ i2 j caps, matchAt s i2 = some (caps, j) ∧ rec = recOf s caps := by
  intro steps
  induction steps with
  | zero => intro i rec h; simp [scanFrom] at h
  | succ n ih =>
    intro i rec h
    simp only [scanFrom] at h
    cases hm : matchAt s i with
    | some p =>
      obtain ⟨caps, j⟩ := p
      rw [hm] at h
      rcases List.mem_cons.mp h with rfl | h2
      · exact ⟨i, j, caps, hm, rfl⟩
      · exact ih _ rec h2
    | none =>
      rw [hm] at h
      by_cases hle : i ≤ s.length
      · rw [if_pos hle] at h
        exact ih _ rec h
      · rw [if_neg hle] at h
        simp at h

/-- Every record of `findall` is the capture tuple of a declarative
match of the full pattern. -/
theorem findall_mem {text : List Char} {rec : Rec4} (h : rec ∈ findall text) :
    ∃ i j caps, RMatch text fullRE i j caps ∧ rec = recOf text caps := by
  obtain ⟨i2, j, caps, hm, hrec⟩ := scanFrom_mem _ _ rec h
  unfold matchAt at hm
  obtain ⟨j2, cs, hR, hk⟩ := mmatch_sound _ _ _ _ _ _ _ hm
  have hk2 : some (cs ++ ([] : List Cap), j2) = some (caps, j) := hk
  injection hk2 with hk3
  have hc : cs = caps := by
    have := congrArg Prod.fst hk3
    simpa using this
  exact ⟨i2, j2, caps, hc ▸ hR, hrec⟩

theorem cls_inv {s : List Char} {p : Char → Bool} {i j : Nat} {cs : List Cap}
    (h : RMatch s (RE.cls p) i j cs) :
    ∃ c, s.get? i = some c ∧ p c = true ∧ j = i + 1 ∧ cs = [] := by
  cases h with
  | cls hget hp => exact ⟨_, hget, hp, rfl, rfl⟩

theorem eps_inv {s : List Char} {i j : Nat} {cs : List Cap}
    (h : RMatch s RE.eps i j cs) : j = i ∧ cs = [] := by
  cases h
  exact ⟨rfl, rfl⟩

theorem seq_inv {s : List Char} {a b : RE} {i k : Nat} {cs : List Cap}
    (h : RMatch s (RE.seq a b) i k cs) :
    ∃ j ca cb, RMatch s a i j ca ∧ RMatch s b j k cb ∧ cs = cb ++ ca := by
  cases h with
  | seq ha hb => exact ⟨_, _, _, ha, hb, rfl⟩

theorem opt_inv {s : List Char} {a : RE} {i j : Nat} {cs : List Cap}
    (h : RMatch s (RE.opt a) i j cs) :
    RMatch s a i j cs ∨ (j = i ∧ cs = []) := by
  cases h with
  | optSome h2 => exact Or.inl h2
  | optNone => exact Or.inr ⟨rfl, rfl⟩

theorem group_inv {s : List Char} {a : RE} {idx i j : Nat} {cs : List Cap}
    (h : RMatch s (RE.group idx a) i j cs) :
    ∃ ca, RMatch s a i j ca ∧ cs = (idx, i, j) :: ca := by
  cases h with
  | group h2 => exact ⟨_, h2, rfl⟩

/-- A group-free expression produces no captures. -/
theorem noGroups_caps {s : List Char} {re : RE} {i j : Nat} {cs : List Cap}
    (h : RMatch s re i j cs) (hg : noGroups re = true) : cs = [] := by
  induction h with
  | cls _ _ => rfl
  | eps => rfl
  | seq ha hb iha ihb =>
    simp only [noGroups, Bool.and_eq_true] at hg
    simp [iha hg.1, ihb hg.2]
  | optSome h2 ih => exact ih (by simpa [noGroups] using hg)
  | optNone => rfl
  | starNil => rfl
  | starCons h1 h2 ih1 ih2 =>
    simp [ih1 (by simpa [noGroups] using hg), ih2 hg]
  | plusOne h2 ih => exact ih (by simpa [noGroups] using hg)
  | plusMore h1 h2 ih1 ih2 =>
    simp [ih1 (by simpa [noGroups] using hg), ih2 hg]
  | group h2 ih => simp [noGroups] at hg

/-- Structure of any declarative match of the full pattern: the four
groups match their bodies on consecutive stretches, and the capture
list is exactly the four group captures. -/
theorem fullRE_inv {s : List Char} {i j : Nat} {cs : List Cap}
    (h : RMatch s fullRE i j cs) :
    ∃ b1 a2 b2 a3 b3 a4,
      RMatch s idRE i b1 [] ∧ RMatch s ownerRE a2 b2 [] ∧ RMatch s addrRE a3 b3 [] ∧
      RMatch s amountRE a4 j [] ∧
      cs = [(4, a4, j), (3, a3, b3), (2, a2, b2), (1, i, b1)] := by
  obtain ⟨b1, cg1, cr1, hG1, hR1, hcs1⟩ := seq_inv h
  obtain ⟨cid, hid, hcg1⟩ := group_inv hG1
  have hid0 : cid = [] := noGroups_caps hid (by rfl)
  obtain ⟨a2, cw1, cr2, hw1, hR2, hcr1⟩ := seq_inv hR1
  have hw10 : cw1 = [] := noGroups_caps hw1 (by rfl)
  obtain ⟨b2, cg2, cr3, hG2, hR3, hcr2⟩ := seq_inv hR2
  obtain ⟨cown, hown, hcg2⟩ := group_inv hG2
  have hown0 : cown = [] := noGroups_caps hown (by rfl)
  obtain ⟨a3, cw2, cr4, hw2, hR4, hcr3⟩ := seq_inv hR3
  have hw20 : cw2 = [] := noGroups_caps hw2 (by rfl)
  obtain ⟨b3, cg3, cr5, hG3, hR5, hcr4⟩ := seq_inv hR4
  obtain ⟨caddr, haddr, hcg3⟩ := group_inv hG3
  have haddr0 : caddr = [] := noGroups_caps haddr (by rfl)
  obtain ⟨a4d, cw3, cr6, hw3, hR6, hcr5⟩ := seq_inv hR5
  have hw30 : cw3 = [] := noGroups_caps hw3 (by rfl)
  obtain ⟨a4, cd, cg4, hD, hG4, hcr6⟩ := seq_inv hR6
  have hd0 : cd = [] := noGroups_caps hD (by rfl)
  obtain ⟨cam, ham, hcg4⟩ := group_inv hG4
  have ham0 : cam = [] := noGroups_caps ham (by rfl)
  subst hid0 hown0 haddr0 ham0 hd0 hw10 hw20 hw30
  subst hcg1 hcg2 hcg3 hcg4
  subst hcr6 hcr5 hcr4 hcr3 hcr2 hcr1
  subst hcs1
  exact ⟨b1, a2, b2, a3, b3, a4, hid, hown, haddr, ham, by simp⟩

theorem slice_self (s : List Char) (i : Nat) : slice s i i = [] := by
  simp [slice]

theorem slice_cons {s : List Char} {i j : Nat} {c : Char} (hij : i < j)
    (hc : s.get? i = some c) : slice s i j = c :: slice s (i + 1) j := by
  obtain ⟨hi, hg⟩ := List.get?_eq_some.mp hc
  unfold slice
  rw [List.drop_eq_getElem_cons hi]
  rw [show s[i] = c from hg]
  have hji : j - i = (j - (i + 1)) + 1 := by omega
  rw [hji]
  rfl

theorem slice_split {s : List Char} {i j k : Nat} (h1 : i ≤ j) (h2 : j ≤ k) :
    slice s i k = slice s i j ++ slice s j k := by
  unfold slice
  have hki : k - i = (j - i) + (k - j) := by omega
  rw [hki, List.take_add]
  congr 1
  have hj : i + (j - i) = j := by omega
  rw [List.drop_drop, hj]

theorem list_len1 {l : List Char} (hl : l.length = 1) : ∃ a, l = [a] := by
  rcases l with _ | ⟨a, l⟩
  · simp at hl
  rcases l with _ | ⟨b, l⟩
  · exact ⟨a, rfl⟩
  · simp at hl

theorem list_len2 {l : List Char} (hl : l.length = 2) : ∃ a b, l = [a, b] := by
  rcases l with _ | ⟨a, l⟩
  · simp at hl
  rcases l with _ | ⟨b, l⟩
  · simp at hl
  rcases l with _ | ⟨c, l⟩
  · exact ⟨a, b, rfl⟩
  · simp at hl

theorem list_len3 {l : List Char} (hl : l.length = 3) : ∃ a b c, l = [a, b, c] := by
  rcases l with _ | ⟨a, l⟩
  · simp at hl
  rcases l with _ | ⟨b, l⟩
  · simp at hl
  rcases l with _ | ⟨c, l⟩
  · simp at hl
  rcases l with _ | ⟨d, l⟩
  · exact ⟨a, b, c, rfl⟩
  · simp at hl

/-- `a{n}` over a class: consumes exactly `n` characters of the
class. -/
theorem repE_cls_spec {p : Char → Bool} {s : List Char} :
    ∀ (n : Nat) {i j : Nat} {cs : List Cap},
      RMatch s (repE (RE.cls p) n) i j cs →
      j = i + n ∧ cs = [] ∧ (slice s i j).all p = true ∧ (slice s i j).length = n := by
  intro n
  induction n with
  | zero =>
    intro i j cs h
    obtain ⟨hj, hcs⟩ := eps_inv h
    subst hj
    exact ⟨by omega, hcs, by simp [slice_self], by simp [slice_self]⟩
  | succ n ih =>
    intro i j cs h
    obtain ⟨j1, ca, cb, hc, hrest, hcs⟩ := seq_inv h
    obtain ⟨c, hget, hp, hj1, hca⟩ := cls_inv hc
    subst hj1
    obtain ⟨hj, hcb, hall, hlen⟩ := ih hrest
    subst hj
    refine ⟨by omega, by simp [hcs, hca, hcb], ?_, ?_⟩
    · rw [slice_cons (by omega) hget]
      simp [hall, hp]
    · rw [slice_cons (by omega) hget]
      simp [hlen]

/-- `a{0,n}` over a class: consumes at most `n` characters of the
class. -/
theorem upTo_cls_spec {p : Char → Bool} {s : List Char} :
    ∀ (n : Nat) {i j : Nat} {cs : List Cap},
      RMatch s (upTo (RE.cls p) n) i j cs →
      i ≤ j ∧ j ≤ i + n ∧ cs = [] ∧ (slice s i j).all p = true ∧
        (slice s i j).length = j - i := by
  intro n
  induction n with
  | zero =>
    intro i j cs h
    obtain ⟨hj, hcs⟩ := eps_inv h
    subst hj
    simp [slice_self, hcs]
  | succ n ih =>
    intro i j cs h
    rcases opt_inv h with h2 | ⟨hj, hcs⟩
    · obtain ⟨j1, ca, cb, hc, hrest, hcs⟩ := seq_inv h2
      obtain ⟨c, hget, hp, hj1, hca⟩ := cls_inv hc
      subst hj1
      obtain ⟨hle1, hle2, hcb, hall, hlen⟩ := ih hrest
      refine ⟨by omega, by omega, by simp [hcs, hca, hcb], ?_, ?_⟩
      · rw [slice_cons (by omega) hget]
        simp [hall, hp]
      · rw [slice_cons (by omega) hget]
        simp [hlen]
        omega
    · subst hj
      simp [slice_self, hcs]

/-- A lazy plus over a class consumes at least one character, all of
the class. -/
theorem plusLazy_cls_spec {p : Char → Bool} {s : List Char} {re : RE} {i j : Nat}
    {cs : List Cap} (h : RMatch s re i j cs) :
    re = RE.plusLazy (RE.cls p) →
    cs = [] ∧ i < j ∧ (slice s i j).all p = true ∧ slice s i j ≠ [] := by
  induction h with
  | cls _ _ => intro he; exact RE.noConfusion he
  | eps => intro he; exact RE.noConfusion he
  | seq _ _ _ _ => intro he; exact RE.noConfusion he
  | optSome _ _ => intro he; exact RE.noConfusion he
  | optNone => intro he; exact RE.noConfusion he
  | starNil => intro he; exact RE.noConfusion he
  | starCons _ _ _ _ => intro he; exact RE.noConfusion he
  | plusOne h2 ih =>
    intro he
    injection he with he2
    subst he2
    obtain ⟨c, hget, hp, hj, hcs⟩ := cls_inv h2
    subst hj
    refine ⟨hcs, by omega, ?_, ?_⟩
    · rw [slice_cons (by omega) hget, slice_self]
      simp [hp]
    · rw [slice_cons (by omega) hget]
      simp
  | plusMore h1 h2 ih1 ih2 =>
    intro he
    injection he with he2
    subst he2
    obtain ⟨c, hget, hp, hj, hca⟩ := cls_inv h1
    subst hj
    obtain ⟨hcr, hlt, hall, hne⟩ := ih2 rfl
    refine ⟨by simp [hca, hcr], by omega, ?_, ?_⟩
    · rw [slice_cons (by omega) hget]
      simp [hall, hp]
    · rw [slice_cons (by omega) hget]
      simp
  | group _ _ => intro he; exact RE.noConfusion he

/-- One `,ddd` block. -/
theorem commaTriple_spec {s : List Char} {i j : Nat} {cs : List Cap}
    (h : RMatch s commaTriple i j cs) :
    ∃ d1 d2 d3, j = i + 4 ∧ cs = [] ∧ slice s i j = [',', d1, d2, d3] ∧
      d1.isDigit = true ∧ d2.isDigit = true ∧ d3.isDigit = true := by
  obtain ⟨j1, ca, cb, hc, hrest, hcs⟩ := seq_inv h
  obtain ⟨c0, hget, hp, hj1, hca⟩ := cls_inv hc
  subst hj1
  obtain ⟨hj, hcb, hall, hlen⟩ := repE_cls_spec 3 hrest
  subst hj
  have hc0 : c0 = ',' := by simpa using hp
  subst hc0
  obtain ⟨d1, d2, d3, hsl⟩ := list_len3 hlen
  rw [hsl] at hall
  simp only [List.all_cons, List.all_nil, Bool.and_eq_true, Bool.and_true] at hall
  refine ⟨d1, d2, d3, by omega, by simp [hcs, hca, hcb], ?_, hall.1, hall.2.1, hall.2.2⟩
  rw [slice_cons (by omega) hget, hsl]

/-- A star of `,ddd` blocks covers its slice with comma blocks. -/
theorem star_commaTriple_spec {s : List Char} {re : RE} {i j : Nat} {cs : List Cap}
    (h : RMatch s re i j cs) :
    re = RE.star commaTriple →
    cs = [] ∧ i ≤ j ∧ commaBlocks (slice s i j) = true := by
  induction h with
  | cls _ _ => intro he; exact RE.noConfusion he
  | eps => intro he; exact RE.noConfusion he
  | seq _ _ _ _ => intro he; exact RE.noConfusion he
  | optSome _ _ => intro he; exact RE.noConfusion he
  | optNone => intro he; exact RE.noConfusion he
  | starNil =>
    intro he
    exact ⟨rfl, Nat.le_refl _, by simp [slice_self, commaBlocks]⟩
  | starCons h1 h2 ih1 ih2 =>
    intro he
    injection he with he2
    subst he2
    obtain ⟨d1, d2, d3, hj1, hca, hsl, hd1, hd2, hd3⟩ := commaTriple_spec h1
    subst hj1
    obtain ⟨hcr, hle, hblocks⟩ := ih2 rfl
    refine ⟨by simp [hca, hcr], by omega, ?_⟩
    rw [slice_split (by omega) hle, hsl]
    simp only [List.cons_append, List.nil_append]
    simp [commaBlocks, hd1, hd2, hd3, hblocks]
  | plusOne _ _ => intro he; exact RE.noConfusion he
  | plusMore _ _ _ _ => intro he; exact RE.noConfusion he
  | group _ _ => intro he; exact RE.noConfusion he

/-- A non-empty comma-block word starts with a comma. -/
theorem commaBlocks_head {u : List Char} (h : commaBlocks u = true) :
    u = [] ∨ u.head? = some ',' := by
  rcases u with _ | ⟨c0, u⟩
  · exact Or.inl rfl
  rcases u with _ | ⟨a, u⟩
  · simp [commaBlocks] at h
  rcases u with _ | ⟨b, u⟩
  · simp [commaBlocks] at h
  rcases u with _ | ⟨c, rest⟩
  · simp [commaBlocks] at h
  simp only [commaBlocks, Bool.and_eq_true] at h
  obtain ⟨⟨⟨⟨h0, h1⟩, h2⟩, h3⟩, h4⟩ := h
  right
  have hc0 : c0 = ',' := by simpa using h0
  simp [hc0]

theorem takeWhile_append_all {p : Char → Bool} :
    ∀ (xs ys : List Char), xs.all p = true → (∀ c, ys.head? = some c → p c = false) →
      (xs ++ ys).takeWhile p = xs ∧ (xs ++ ys).dropWhile p = ys := by
  intro xs
  induction xs with
  | nil =>
    intro ys hall hhead
    cases ys with
    | nil => simp
    | cons c t =>
      have hc := hhead c rfl
      simp [List.takeWhile_cons, List.dropWhile_cons, hc]
  | cons x xs ih =>
    intro ys hall hhead
    simp only [List.all_cons, Bool.and_eq_true] at hall
    obtain ⟨hx, hxs⟩ := hall
    obtain ⟨ht, hd⟩ := ih ys hxs hhead
    constructor
    · simp [List.takeWhile_cons, hx, ht]
    · simp [List.dropWhile_cons, hx, hd]

/-- Appending the cents part to comma blocks yields a cents tail. -/
theorem centsTail_append {d e : Char} (hd : d.isDigit = true) (he : e.isDigit = true) :
    ∀ (n : Nat) (u : List Char), u.length ≤ n → commaBlocks u = true →
      centsTail (u ++ ['.', d, e]) = true := by
  intro n
  induction n with
  | zero =>
    intro u hu hcb
    have hu0 : u = [] := List.length_eq_zero.mp (by omega)
    subst hu0
    simp [centsTail, hd, he]
  | succ n ih =>
    intro u hu hcb
    rcases u with _ | ⟨c0, u⟩
    · simp [centsTail, hd, he]
    rcases u with _ | ⟨a, u⟩
    · simp [commaBlocks] at hcb
    rcases u with _ | ⟨b, u⟩
    · simp [commaBlocks] at hcb
    rcases u with _ | ⟨c, rest⟩
    · simp [commaBlocks] at hcb
    simp only [commaBlocks, Bool.and_eq_true] at hcb
    obtain ⟨⟨⟨⟨h0, h1⟩, h2⟩, h3⟩, h4⟩ := hcb
    have hrest := ih rest (by simp at hu; omega) h4
    simp [centsTail, h0, h1, h2, h3, hrest]

/-- Whitespace characters are not digits. -/
theorem space_not_digit {w : Char} (h : isSpaceChar w = true) : w.isDigit = false := by
  simp only [isSpaceChar, Bool.or_eq_true, beq_iff_eq] at h
  rcases h with ((((rfl | rfl) | rfl) | rfl) | rfl) | rfl <;> rfl

/-- The identifier capture has the `ddd-ddd` or `ddd-ddd-ddd` shape. -/
theorem idRE_shape {s : List Char} {i j : Nat} {cs : List Cap}
    (h : RMatch s idRE i j cs) : isIdShape (slice s i j) = true := by
  obtain ⟨j1, ca, cb, h3a, hrest, hcs⟩ := seq_inv h
  obtain ⟨hj1, hca, hall1, hlen1⟩ := repE_cls_spec 3 h3a
  obtain ⟨a, b, c, hsl1⟩ := list_len3 hlen1
  rw [hsl1] at hall1
  simp only [List.all_cons, List.all_nil, Bool.and_eq_true, Bool.and_true] at hall1
  obtain ⟨j2, cd1, ce, hdash, hrest2, hcb⟩ := seq_inv hrest
  obtain ⟨m1, hgetm, hpm, hj2, hcd1⟩ := cls_inv hdash
  have hm1 : m1 = '-' := by simpa using hpm
  subst hm1
  have hdashsl : slice s j1 j2 = ['-'] := by
    rw [hj2, slice_cons (by omega) hgetm, slice_self]
  obtain ⟨j3, cf, cg, h3b, hopt, hce⟩ := seq_inv hrest2
  obtain ⟨hj3, hcf, hall2, hlen2⟩ := repE_cls_spec 3 h3b
  obtain ⟨d, e, f, hsl2⟩ := list_len3 hlen2
  rw [hsl2] at hall2
  simp only [List.all_cons, List.all_nil, Bool.and_eq_true, Bool.and_true] at hall2
  rcases opt_inv hopt with hseq | ⟨hj, hcg⟩
  · obtain ⟨j4, ch1, ci, hdash2, h3c, hcg2⟩ := seq_inv hseq
    obtain ⟨m2, hgetm2, hpm2, hj4, hch1⟩ := cls_inv hdash2
    have hm2 : m2 = '-' := by simpa using hpm2
    subst hm2
    have hdashsl2 : slice s j3 j4 = ['-'] := by
      rw [hj4, slice_cons (by omega) hgetm2, slice_self]
    obtain ⟨hj, hci, hall3, hlen3⟩ := repE_cls_spec 3 h3c
    obtain ⟨g, x, y, hsl3⟩ := list_len3 hlen3
    rw [hsl3] at hall3
    simp only [List.all_cons, List.all_nil, Bool.and_eq_true, Bool.and_true] at hall3
    have hassem : slice s i j =
        [a, b, c] ++ (['-'] ++ ([d, e, f] ++ (['-'] ++ [g, x, y]))) := by
      rw [slice_split (by omega) (by omega : j1 ≤ j),
        slice_split (by omega) (by omega : j2 ≤ j),
        slice_split (by omega) (by omega : j3 ≤ j),
        slice_split (by omega) (by omega : j4 ≤ j),
        hsl1, hdashsl, hsl2, hdashsl2, hsl3]
    rw [hassem]
    simp only [List.cons_append, List.nil_append, isIdShape]
    simp [hall1.1, hall1.2.1, hall1.2.2, hall2.1, hall2.2.1, hall2.2.2,
      hall3.1, hall3.2.1, hall3.2.2]
  · have hassem : slice s i j = [a, b, c] ++ (['-'] ++ [d, e, f]) := by
      rw [slice_split (by omega) (by omega : j1 ≤ j),
        slice_split (by omega) (by omega : j2 ≤ j),
        hsl1, hdashsl]
      rw [show j = j3 from hj, hsl2]
    rw [hassem]
    simp only [List.cons_append, List.nil_append, isIdShape]
    simp [hall1.1, hall1.2.1, hall1.2.2, hall2.1, hall2.2.1, hall2.2.2]

/-- The street-address capture has the digits-whitespace-body shape,
and is never all digits. -/
theorem addrRE_shape {s : List Char} {i j : Nat} {cs : List Cap}
    (h : RMatch s addrRE i j cs) :
    isAddrShape (slice s i j) = true ∧ (slice s i j).all Char.isDigit = false := by
  obtain ⟨j1, ca, cb, hdr, hrest, hcs⟩ := seq_inv h
  obtain ⟨jm, ca1, ca2, hrep1, hup, hcaeq⟩ := seq_inv hdr
  obtain ⟨hjm, hca1, hallm, hlenm⟩ := repE_cls_spec 1 hrep1
  obtain ⟨hlem1, hlem2, hca2, hallu, hlenu⟩ := upTo_cls_spec 4 hup
  obtain ⟨j2, cw, cbody, hws, hbody, hcbeq⟩ := seq_inv hrest
  obtain ⟨w, hgetw, hpw, hj2, hcw⟩ := cls_inv hws
  obtain ⟨hcb0, hlt, hallb, hbne⟩ := plusLazy_cls_spec hbody rfl
  have hds_all : (slice s i j1).all Char.isDigit = true := by
    rw [slice_split (by omega) hlem1]
    simp [List.all_append, hallm, hallu]
  have hds_len : 1 ≤ (slice s i j1).length ∧ (slice s i j1).length ≤ 5 := by
    rw [slice_split (by omega) hlem1, List.length_append, hlenm, hlenu]
    omega
  have htail : slice s j1 j = w :: slice s j2 j := by
    rw [hj2, slice_cons (by omega) hgetw]
  have hhead : ∀ c2, (slice s j1 j).head? = some c2 → Char.isDigit c2 = false := by
    intro c2 hc2
    rw [htail] at hc2
    simp only [List.head?] at hc2
    injection hc2 with hc3
    subst hc3
    exact space_not_digit hpw
  have hsplit : slice s i j = slice s i j1 ++ slice s j1 j :=
    slice_split (by omega) (by omega)
  obtain ⟨htw, hdw⟩ :=
    takeWhile_append_all (slice s i j1) (slice s j1 j) hds_all hhead
  constructor
  · rw [hsplit, htail]
    rw [htail] at htw hdw
    simp only [isAddrShape]
    rw [htw, hdw]
    simp [hpw, hbne, hallb, hds_len.1, hds_len.2]
  · rw [hsplit, htail]
    simp [List.all_append, space_not_digit hpw]

/-- The amount capture has the full amount-grammar shape and ends with
a period and two digits. -/
theorem amountRE_shape {s : List Char} {i j : Nat} {cs : List Cap}
    (h : RMatch s amountRE i j cs) :
    isAmountShape (slice s i j) = true ∧ endsWithCents (slice s i j) = true := by
  obtain ⟨k1, ca, cb, hA, hrest1, hcs⟩ := seq_inv h
  obtain ⟨km, ca1, ca2, hrep1, hup, hcaeq⟩ := seq_inv hA
  obtain ⟨hkm, hca1, hallm, hlenm⟩ := repE_cls_spec 1 hrep1
  obtain ⟨hlem1, hlem2, hca2, hallu, hlenu⟩ := upTo_cls_spec 2 hup
  obtain ⟨k2, cb1, cb2, hstar, hrest2, hcbeq⟩ := seq_inv hrest1
  obtain ⟨hcb1, hlek, hblocks⟩ := star_commaTriple_spec hstar rfl
  obtain ⟨k3, cc1, cc2, hdot, hdd, hcceq⟩ := seq_inv hrest2
  obtain ⟨cdot, hgetdot, hpdot, hk3, hccdot⟩ := cls_inv hdot
  have hdot2 : cdot = '.' := by simpa using hpdot
  subst hdot2
  obtain ⟨hj, hcc2, halldd, hlendd⟩ := repE_cls_spec 2 hdd
  obtain ⟨d, e, hsldd⟩ := list_len2 hlendd
  rw [hsldd] at halldd
  simp only [List.all_cons, List.all_nil, Bool.and_eq_true, Bool.and_true] at halldd
  have hcents : slice s k2 j = ['.', d, e] := by
    rw [hk3] at hsldd
    rw [slice_cons (by omega) hgetdot, hsldd]
  have hds_all : (slice s i k1).all Char.isDigit = true := by
    rw [slice_split (by omega) hlem1]
    simp [List.all_append, hallm, hallu]
  have hds_len : 1 ≤ (slice s i k1).length ∧ (slice s i k1).length ≤ 3 := by
    rw [slice_split (by omega) hlem1, List.length_append, hlenm, hlenu]
    omega
  have htaileq : slice s k1 j = slice s k1 k2 ++ ['.', d, e] := by
    rw [slice_split hlek (by omega), hcents]
  have hhead : ∀ c2, (slice s k1 j).head? = some c2 → Char.isDigit c2 = false := by
    intro c2 hc2
    rw [htaileq] at hc2
    rcases commaBlocks_head hblocks with h0 | h0
    · rw [h0] at hc2
      simp only [List.nil_append, List.head?] at hc2
      injection hc2 with hc3
      subst hc3
      rfl
    · rcases hu : slice s k1 k2 with _ | ⟨c0, u⟩
      · rw [hu] at h0
        simp at h0
      · rw [hu] at h0 hc2
        simp only [List.head?] at h0
        injection h0 with h02
        simp only [List.cons_append, List.head?] at hc2
        injection hc2 with hc3
        subst hc3
        rw [h02]
        rfl
  have hsplit : slice s i j = slice s i k1 ++ slice s k1 j :=
    slice_split (by omega) (by omega)
  obtain ⟨htw, hdw⟩ :=
    takeWhile_append_all (slice s i k1) (slice s k1 j) hds_all hhead
  have hct : centsTail (slice s k1 k2 ++ ['.', d, e]) = true :=
    centsTail_append halldd.1 halldd.2 (slice s k1 k2).length (slice s k1 k2)
      (Nat.le_refl _) hblocks
  constructor
  · rw [hsplit, htaileq]
    rw [htaileq] at htw hdw
    simp only [isAmountShape]
    rw [htw, hdw]
    simp [hct, hds_len.1, hds_len.2]
  · rw [hsplit, htaileq, ← List.append_assoc]
    simp only [endsWithCents, List.reverse_append]
    simp [halldd.1, halldd.2]

/-- C10: every record extraction produces satisfies the field-shape
invariant of the pattern grammar: the identifier is `ddd-ddd` or
`ddd-ddd-ddd`; the street address begins with one to five digits
followed by a whitespace character and at least one further character
of the word/space/period/apostrophe/hyphen class (so an address of
digits alone is never emitted); and the amount ends with a period and
exactly two decimal digits. -/
theorem record_field_shapes (text : List Char) (rec : Rec4) (h : rec ∈ findall text) :
    isIdShape (recLandTax rec) = true ∧ isAddrShape (recAddress rec) = true ∧
      (recAddress rec).all Char.isDigit = false ∧ endsWithCents (recAmount rec) = true := by
  obtain ⟨i, j, caps, hR, hrec⟩ := findall_mem h
  obtain ⟨b1, a2, b2, a3, b3, a4, hid, hown, haddr, ham, hcaps⟩ := fullRE_inv hR
  subst hcaps
  subst hrec
  obtain ⟨haS, haD⟩ := addrRE_shape haddr
  obtain ⟨hAm, hCe⟩ := amountRE_shape ham
  exact ⟨idRE_shape hid, haS, haD, hCe⟩

theorem record_field_shapes_witness :
    recShapes ∈ findall textShapes ∧
      (isIdShape (recLandTax recShapes) = true ∧
        isAddrShape (recAddress recShapes) = true ∧
        (recAddress recShapes).all Char.isDigit = false ∧
        endsWithCents (recAmount recShapes) = true) :=
  ⟨by decide, record_field_shapes textShapes recShapes (by decide)⟩

/-- C9: the amount grammar accepts only one to three leading digits
before the comma groups, so the integer-digit prefix of every
extracted amount has length at most three, and thousands separators
are mandatory above 999; in particular the text whose only
dollar-prefixed amount is `$1234.56` yields no record at all. -/
theorem amount_grammar_shape (text : List Char) (rec : Rec4) (h : rec ∈ findall text) :
    isAmountShape (recAmount rec) = true ∧
      ((recAmount rec).takeWhile Char.isDigit).length ≤ 3 ∧
      findall ("123-456-789 JOHN DOE 456 Main St. $1234.56".toList) = [] := by
  obtain ⟨i, j, caps, hR, hrec⟩ := findall_mem h
  obtain ⟨b1, a2, b2, a3, b3, a4, hid, hown, haddr, ham, hcaps⟩ := fullRE_inv hR
  subst hcaps
  subst hrec
  obtain ⟨hAm, hCe⟩ := amountRE_shape ham
  refine ⟨hAm, ?_, by rfl⟩
  have h2 := hAm
  simp only [isAmountShape, Bool.and_eq_true, decide_eq_true_eq] at h2
  exact h2.1.2

theorem amount_grammar_shape_witness :
    recShapes ∈ findall textShapes ∧
      (isAmountShape (recAmount recShapes) = true ∧
        ((recAmount recShapes).takeWhile Char.isDigit).length ≤ 3 ∧
        findall ("123-456-789 JOHN DOE 456 Main St. $1234.56".toList) = []) :=
  ⟨by decide, amount_grammar_shape textShapes recShapes (by decide)⟩

end STLGeo
